import Mathlib

/-!
Verification of `src/scripts/count-failures-dirs.py`.

The script reads stdin line by line, skips lines not starting with the
literal `case`, splits the remaining lines on whitespace into exactly two
tokens `tag filename` (a `ValueError` aborts the run otherwise), asserts
`tag == 'case'`, tallies `os.path.dirname(filename)` in a `collections.Counter`,
and finally prints `'{:6} {}'.format(count, dir)` for each entry of
`reversed(dirs.most_common())`.

The embedding below models each Python primitive the script uses on
`List Char` / `String`, the run as explicit state passing over the list of
input lines (a line is modelled without its trailing newline, which
`startswith('case')` and `split()` both ignore), and abortion
(`ValueError` from unpacking, `AssertionError` from the `assert`) as `none`.
-/

/-- Python `s.startswith(p)`: `p` is a leading substring of `s`. -/
def strStartsWith (s p : String) : Bool :=
  listStarts s.toList p.toList
where listStarts : List Char → List Char → Bool
  | _, [] => true
  | [], _ :: _ => false
  | c :: cs, d :: ds => c = d && listStarts cs ds

/-- The characters Python `str.split()` with no separator argument splits on:
`Py_UNICODE_ISSPACE`, i.e. bidirectional class WS, B or S or general category
Zs, Zl or Zp — the ASCII whitespace `0x09`–`0x0d`, the separators
`0x1c`–`0x1f`, the space `0x20`, then NEL, NBSP, OGHAM SPACE MARK,
`U+2000`–`U+200A`, LINE and PARAGRAPH SEPARATOR, NARROW NBSP, MEDIUM
MATHEMATICAL SPACE and IDEOGRAPHIC SPACE. -/
def pySpaceChars : List Char :=
  ['\t', '\n', '\x0b', '\x0c', '\r',
   '\x1c', '\x1d', '\x1e', '\x1f', ' ',
   '\u0085', '\u00a0', '\u1680',
   '\u2000', '\u2001', '\u2002', '\u2003', '\u2004', '\u2005', '\u2006',
   '\u2007', '\u2008', '\u2009', '\u200a',
   '\u2028', '\u2029', '\u202f', '\u205f', '\u3000']

/-- Python whitespace for `str.split()` with no separator argument. -/
def isPySpace (c : Char) : Bool :=
  pySpaceChars.contains c

/-- Worker for `pySplit`: `acc` holds the reversed chars of the word being read. -/
def splitWsAux : List Char → List Char → List String
  | [], [] => []
  | [], acc => [String.mk acc.reverse]
  | c :: cs, acc =>
    if isPySpace c then
      match acc with
      | [] => splitWsAux cs []
      | _ => String.mk acc.reverse :: splitWsAux cs []
    else splitWsAux cs (c :: acc)

/-- Python `s.split()`: maximal runs of non-whitespace, empty tokens dropped. -/
def pySplit (s : String) : List String :=
  splitWsAux s.toList []

/-- `p[:p.rfind(sep) + 1]` for `sep = '/'` — everything up to and including
the last slash, empty when there is no slash. -/
def headToLastSep : List Char → List Char
  | [] => []
  | c :: cs =>
    if '/' ∈ cs then c :: headToLastSep cs
    else if c = '/' then ['/'] else []

/-- `head == sep * len(head)` in `posixpath.dirname` (vacuously true when empty). -/
def allSlashes (l : List Char) : Bool :=
  l.all (fun c => c = '/')

/-- `head.rstrip(sep)`: drop trailing slashes. -/
def rstripSlash (l : List Char) : List Char :=
  (l.reverse.dropWhile (fun c => c = '/')).reverse

/-- Python `os.path.dirname` (the posixpath implementation used by the script):
take the slice up to the last `/`, then strip trailing slashes unless the
slice is empty or consists only of slashes. -/
def dirname (p : String) : String :=
  let head := headToLastSep p.toList
  String.mk (if allSlashes head then head else rstripSlash head)

/-- The `Counter` state as an insertion-ordered association list, as Python
dicts preserve insertion order: a new key is appended at the end with count 1,
an existing key is updated in place (`dirs[dir] += 1`). -/
def bump : List (String × Nat) → String → List (String × Nat)
  | [], k => [(k, 1)]
  | (k', c) :: rest, k =>
    if k' = k then (k', c + 1) :: rest else (k', c) :: bump rest k

/-- One iteration of the input loop on one line: skip lines not starting with
`case` (`continue`), abort (`none`) when the line does not split into exactly
two tokens (`ValueError`) or the first token is not `case` (failed `assert`),
otherwise bump the tally at `dirname filename`. -/
def processLine (t : List (String × Nat)) (line : String) :
    Option (List (String × Nat)) :=
  if strStartsWith line "case" = true then
    match pySplit line with
    | [tag, filename] =>
      if tag = "case" then some (bump t (dirname filename)) else none
    | _ => none
  else some t

/-- The input loop starting from tally `t`: `none` when some line aborts. -/
def runFrom (t : List (String × Nat)) : List String → Option (List (String × Nat))
  | [] => some t
  | l :: ls =>
    match processLine t l with
    | none => none
    | some t' => runFrom t' ls

/-- The whole input loop, from the empty `Counter`. -/
def run (lines : List String) : Option (List (String × Nat)) :=
  runFrom [] lines

/-- The total order `Counter.most_common()` realises on the enumerated tally
entries `(insertion index, key, count)`: `sorted(key=itemgetter(1), reverse=True)`
is a stable descending sort by count, hence ties keep insertion order. -/
def mcProp (a b : Nat × String × Nat) : Prop :=
  b.2.2 < a.2.2 ∨ (a.2.2 = b.2.2 ∧ a.1 ≤ b.1)

instance (a b : Nat × String × Nat) : Decidable (mcProp a b) := by
  unfold mcProp
  exact inferInstance

/-- Boolean form of `mcProp`, used by the executable sort. -/
def mcLE (a b : Nat × String × Nat) : Bool :=
  decide (mcProp a b)

/-- Insert one element into a list sorted by `le`. -/
def insertBy (le : α → α → Bool) (x : α) : List α → List α
  | [] => [x]
  | y :: ys => if le x y then x :: y :: ys else y :: insertBy le x ys

/-- Insertion sort by `le`. -/
def sortBy (le : α → α → Bool) : List α → List α
  | [] => []
  | x :: xs => insertBy le x (sortBy le xs)

/-- The enumerated tally sorted by `mcLE`; since insertion indices are distinct,
`mcLE` is total, and the result is the unique order of
`Counter.most_common()` (count descending, ties by insertion order). -/
def mostCommonEnum (t : List (String × Nat)) : List (Nat × String × Nat) :=
  sortBy mcLE t.enum

/-- `dirs.most_common()`: `(key, count)` pairs, count descending, ties in
insertion order. -/
def most_common (t : List (String × Nat)) : List (String × Nat) :=
  (mostCommonEnum t).map Prod.snd

/-- `reversed(dirs.most_common())`: the pairs in output order. -/
def outputPairs (t : List (String × Nat)) : List (String × Nat) :=
  (most_common t).reverse

/-- `'{:6}'.format(count)`: decimal digits right-aligned in a field of
width 6, space-filled, never truncated. -/
def formatCount (n : Nat) : String :=
  String.mk (List.replicate (6 - (toString n).length) ' ') ++ toString n

/-- One printed report line, without its trailing newline. -/
def formatLine (p : String × Nat) : String :=
  formatCount p.2 ++ " " ++ p.1

/-- All report lines in output order. -/
def printLines (t : List (String × Nat)) : List String :=
  (outputPairs t).map formatLine

/-- The report of a run: `none` when the run aborted before printing. -/
def output (lines : List String) : Option (List String) :=
  (run lines).map printLines

/-- The report as one string, each `print` appending a newline. -/
def outputText (lines : List String) : Option String :=
  (output lines).map (fun ls => String.join (ls.map (fun l => l ++ "\n")))

/-- Observable I/O events of a run. -/
inductive Ev : Type
  | read : String → Ev
  | write : String → Ev
deriving DecidableEq

/-- The input loop with its event trace: each line consumed produces a
`read` event; an abort stops the trace at the offending line. -/
def loopPhase (t : List (String × Nat)) :
    List String → List Ev × Option (List (String × Nat))
  | [] => ([], some t)
  | l :: ls =>
    match processLine t l with
    | none => ([Ev.read l], none)
    | some t' =>
      let r := loopPhase t' ls
      (Ev.read l :: r.1, r.2)

/-- The whole program as a trace: the input loop runs to abort or exhaustion,
and only then are the report lines written; the flag is the success of the
process (`false` models the non-zero exit of an uncaught exception). -/
def exec (lines : List String) : List Ev × Bool :=
  match loopPhase [] lines with
  | (evs, none) => (evs, false)
  | (evs, some t) => (evs ++ (printLines t).map Ev.write, true)

/-- The key a line contributes to the tally: `some` exactly when the line is
counted. -/
def lineKey (line : String) : Option String :=
  if strStartsWith line "case" = true then
    match pySplit line with
    | [tag, filename] =>
      if tag = "case" then some (dirname filename) else none
    | _ => none
  else none

/-- All keys contributed by an input, in stream order. -/
def keysOf (lines : List String) : List String :=
  lines.filterMap lineKey

/-- Record a key if unseen, keeping first-occurrence order. -/
def insKey (acc : List String) (k : String) : List String :=
  if k ∈ acc then acc else acc ++ [k]

/-- The distinct keys of a stream in order of first occurrence. -/
def firstOccs (ks : List String) : List String :=
  ks.foldl insKey []

/-- `Counter.__getitem__`: the count of a key, `0` when absent. -/
def countOf : List (String × Nat) → String → Nat
  | [], _ => 0
  | (k', c) :: rest, k => if k' = k then c else countOf rest k

theorem loopPhase_snd (ls : List String) :
    ∀ t, (loopPhase t ls).2 = runFrom t ls := by
  induction ls with
  | nil => intro t; rfl
  | cons l ls ih =>
    intro t
    cases h : processLine t l with
    | none => simp [loopPhase, runFrom, h]
    | some t' => simp [loopPhase, runFrom, h, ih t']

theorem processLine_skip (t : List (String × Nat)) (line : String)
    (h : strStartsWith line "case" = false) : processLine t line = some t := by
  simp [processLine, h]

theorem processLine_abort (line : String) (h1 : strStartsWith line "case" = true)
    (h2 : ∀ f, pySplit line ≠ ["case", f]) (t : List (String × Nat)) :
    processLine t line = none := by
  simp only [processLine, h1, if_true]
  rcases hsp : pySplit line with _ | ⟨tag, _ | ⟨f, _ | ⟨g, rest⟩⟩⟩
  · rfl
  · rfl
  · by_cases htag : tag = "case"
    · subst htag
      exact absurd hsp (h2 f)
    · simp [htag]
  · rfl

theorem processLine_wf (line f : String) (h1 : strStartsWith line "case" = true)
    (h2 : pySplit line = ["case", f]) (t : List (String × Nat)) :
    processLine t line = some (bump t (dirname f)) := by
  simp [processLine, h1, h2]

theorem runFrom_append_none (line : String)
    (habort : ∀ t, processLine t line = none) :
    ∀ (pre : List String) (t : List (String × Nat)) (post : List String),
      runFrom t (pre ++ line :: post) = none := by
  intro pre
  induction pre with
  | nil =>
    intro t post
    simp [runFrom, habort t]
  | cons p pre ih =>
    intro t post
    simp only [List.cons_append, runFrom]
    cases h : processLine t p with
    | none => rfl
    | some t' => exact ih t' post

theorem runFrom_skip_middle (line : String)
    (hskip : ∀ t, processLine t line = some t) :
    ∀ (pre : List String) (t : List (String × Nat)) (post : List String),
      runFrom t (pre ++ line :: post) = runFrom t (pre ++ post) := by
  intro pre
  induction pre with
  | nil =>
    intro t post
    simp [runFrom, hskip t]
  | cons p pre ih =>
    intro t post
    simp only [List.cons_append, runFrom]
    cases h : processLine t p with
    | none => rfl
    | some t' => exact ih t' post

theorem countOf_bump_self (t : List (String × Nat)) (k : String) :
    countOf (bump t k) k = countOf t k + 1 := by
  induction t with
  | nil => simp [bump, countOf]
  | cons q rest ih =>
    obtain ⟨k', c⟩ := q
    by_cases hk : k' = k
    · subst hk
      simp [bump, countOf]
    · simp [bump, countOf, hk, ih]

theorem countOf_bump_other (t : List (String × Nat)) (k k' : String)
    (hne : k' ≠ k) : countOf (bump t k) k' = countOf t k' := by
  induction t with
  | nil => simp [bump, countOf, Ne.symm hne]
  | cons q rest ih =>
    obtain ⟨k0, c⟩ := q
    by_cases hk : k0 = k
    · subst hk
      have : k0 ≠ k' := fun h => hne h.symm
      simp [bump, countOf, this]
    · by_cases hk' : k0 = k'
      · subst hk'
        simp [bump, countOf, hk]
      · simp [bump, countOf, hk, hk', ih]

theorem insertBy_mem {α : Type} (le : α → α → Bool) (x : α) (l : List α) (z : α)
    (hz : z ∈ insertBy le x l) : z = x ∨ z ∈ l := by
  induction l with
  | nil => simpa [insertBy] using hz
  | cons y ys ih =>
    by_cases h : le x y = true
    · simp only [insertBy, h, if_true] at hz
      simpa using hz
    · simp only [insertBy, h, if_false, Bool.false_eq_true, List.mem_cons] at hz
      rcases hz with hz | hz
      · right
        simp [hz]
      · rcases ih hz with h1 | h1
        · exact Or.inl h1
        · right
          simp [h1]

theorem insertBy_pairwise {α : Type} (le : α → α → Bool)
    (htot : ∀ a b, le a b = true ∨ le b a = true)
    (htrans : ∀ a b c, le a b = true → le b c = true → le a c = true)
    (x : α) (l : List α) (hl : List.Pairwise (fun a b => le a b = true) l) :
    List.Pairwise (fun a b => le a b = true) (insertBy le x l) := by
  induction l with
  | nil => simp [insertBy]
  | cons y ys ih =>
    rcases List.pairwise_cons.mp hl with ⟨hy, hys⟩
    by_cases h : le x y = true
    · simp only [insertBy, h, if_true]
      refine List.pairwise_cons.mpr ⟨?_, hl⟩
      intro z hz
      rcases List.mem_cons.mp hz with rfl | hz
      · exact h
      · exact htrans x y z h (hy z hz)
    · have hyx : le y x = true := (htot x y).resolve_left h
      simp only [insertBy, h, if_false, Bool.false_eq_true]
      refine List.pairwise_cons.mpr ⟨?_, ih hys⟩
      intro z hz
      rcases insertBy_mem le x ys z hz with rfl | hz
      · exact hyx
      · exact hy z hz

theorem insertBy_perm {α : Type} (le : α → α → Bool) (x : α) (l : List α) :
    List.Perm (insertBy le x l) (x :: l) := by
  induction l with
  | nil => exact List.Perm.refl [x]
  | cons y ys ih =>
    by_cases h : le x y = true
    · simp [insertBy, h]
    · have h1 : insertBy le x (y :: ys) = y :: insertBy le x ys := by
        simp [insertBy, h]
      rw [h1]
      exact List.Perm.trans (List.Perm.cons y ih) (List.Perm.swap x y ys)

theorem sortBy_pairwise {α : Type} (le : α → α → Bool)
    (htot : ∀ a b, le a b = true ∨ le b a = true)
    (htrans : ∀ a b c, le a b = true → le b c = true → le a c = true)
    (l : List α) :
    List.Pairwise (fun a b => le a b = true) (sortBy le l) := by
  induction l with
  | nil => simp [sortBy]
  | cons x xs ih => exact insertBy_pairwise le htot htrans x _ ih

theorem sortBy_perm {α : Type} (le : α → α → Bool) (l : List α) :
    List.Perm (sortBy le l) l := by
  induction l with
  | nil => exact List.Perm.refl []
  | cons x xs ih =>
    exact List.Perm.trans (insertBy_perm le x (sortBy le xs)) (List.Perm.cons x ih)

theorem mcLE_total (a b : Nat × String × Nat) :
    mcLE a b = true ∨ mcLE b a = true := by
  simp only [mcLE, decide_eq_true_eq]
  unfold mcProp
  rcases Nat.lt_trichotomy a.2.2 b.2.2 with h | h | h
  · right
    exact Or.inl h
  · rcases Nat.le_total a.1 b.1 with hi | hi
    · left
      exact Or.inr ⟨h, hi⟩
    · right
      exact Or.inr ⟨h.symm, hi⟩
  · left
    exact Or.inl h

theorem mcLE_trans (a b c : Nat × String × Nat)
    (h1 : mcLE a b = true) (h2 : mcLE b c = true) : mcLE a c = true := by
  simp only [mcLE, decide_eq_true_eq] at h1 h2 ⊢
  unfold mcProp at h1 h2 ⊢
  rcases h1 with h1 | ⟨h1e, h1i⟩
  · rcases h2 with h2 | ⟨h2e, h2i⟩
    · exact Or.inl (Nat.lt_trans h2 h1)
    · exact Or.inl (h2e ▸ h1)
  · rcases h2 with h2 | ⟨h2e, h2i⟩
    · exact Or.inl (h1e ▸ h2)
    · exact Or.inr ⟨h1e.trans h2e, Nat.le_trans h1i h2i⟩

theorem mostCommonEnum_pairwise (t : List (String × Nat)) :
    List.Pairwise (fun a b => mcLE a b = true) (mostCommonEnum t) :=
  sortBy_pairwise mcLE mcLE_total mcLE_trans t.enum

theorem mostCommonEnum_perm (t : List (String × Nat)) :
    List.Perm (mostCommonEnum t) t.enum :=
  sortBy_perm mcLE t.enum

theorem most_common_perm (t : List (String × Nat)) :
    List.Perm (most_common t) t := by
  have h1 : List.Perm (most_common t) (t.enum.map Prod.snd) :=
    List.Perm.map Prod.snd (mostCommonEnum_perm t)
  rwa [List.enum_map_snd] at h1

theorem outputPairs_perm (t : List (String × Nat)) :
    List.Perm (outputPairs t) t :=
  List.Perm.trans (List.reverse_perm (most_common t)) (most_common_perm t)

theorem outputPairs_sorted (t : List (String × Nat)) :
    List.Pairwise (fun p q : String × Nat => p.2 ≤ q.2) (outputPairs t) := by
  have h1 : List.Pairwise (fun a b : Nat × String × Nat => b.2.2 ≤ a.2.2)
      (mostCommonEnum t) := by
    refine (mostCommonEnum_pairwise t).imp ?_
    intro a b hab
    rcases (decide_eq_true_eq).mp hab with h | ⟨h, _⟩
    · exact Nat.le_of_lt h
    · exact Nat.le_of_eq h.symm
  have h2 : List.Pairwise (fun p q : String × Nat => q.2 ≤ p.2) (most_common t) := by
    unfold most_common
    exact (List.pairwise_map).mpr h1
  unfold outputPairs
  exact (List.pairwise_reverse).mpr h2

theorem headToLastSep_no_slash (l : List Char) (h : '/' ∉ l) :
    headToLastSep l = [] := by
  induction l with
  | nil => rfl
  | cons c cs ih =>
    have hc : ¬ c = '/' := fun e => h (by simp [e])
    have hcs : '/' ∉ cs := fun e => h (List.mem_cons_of_mem _ e)
    simp [headToLastSep, hcs, hc]

theorem dirname_no_slash (g : String) (hg : '/' ∉ g.toList) : dirname g = "" := by
  unfold dirname
  rw [headToLastSep_no_slash _ hg]
  rfl

theorem processLine_some_iff (t : List (String × Nat)) (l : String)
    (t' : List (String × Nat)) (h : processLine t l = some t') :
    (lineKey l = none ∧ t' = t) ∨ ∃ k, lineKey l = some k ∧ t' = bump t k := by
  unfold processLine at h
  unfold lineKey
  by_cases h1 : strStartsWith l "case" = true
  · simp only [h1, if_true] at h ⊢
    rcases hsp : pySplit l with _ | ⟨tag, _ | ⟨f, _ | ⟨g, rest⟩⟩⟩ <;> rw [hsp] at h
    · cases h
    · cases h
    · by_cases htag : tag = "case"
      · subst htag
        simp only [if_true] at h ⊢
        refine Or.inr ⟨dirname f, ?_, ?_⟩
        · simp
        · exact (Option.some.inj h).symm
      · simp [htag] at h
    · cases h
  · simp only [h1, if_false] at h ⊢
    exact Or.inl ⟨rfl, (Option.some.inj h).symm⟩

theorem bump_pos (t : List (String × Nat)) (k : String)
    (ht : ∀ p ∈ t, 1 ≤ p.2) : ∀ p ∈ bump t k, 1 ≤ p.2 := by
  induction t with
  | nil =>
    intro p hp
    simp only [bump, List.mem_singleton] at hp
    simp [hp]
  | cons q rest ih =>
    obtain ⟨k', c⟩ := q
    intro p hp
    by_cases hk : k' = k
    · simp only [bump, hk, if_true, List.mem_cons] at hp
      rcases hp with rfl | hp
      · simp
      · exact ht p (List.mem_cons_of_mem _ hp)
    · simp only [bump, hk, if_false, List.mem_cons] at hp
      rcases hp with rfl | hp
      · exact ht (k', c) (List.mem_cons_self _ _)
      · exact ih (fun q hq => ht q (List.mem_cons_of_mem _ hq)) p hp

theorem runFrom_pos (ls : List String) :
    ∀ t0 t, runFrom t0 ls = some t → (∀ p ∈ t0, 1 ≤ p.2) → ∀ p ∈ t, 1 ≤ p.2 := by
  induction ls with
  | nil =>
    intro t0 t h h0
    rw [runFrom] at h
    rw [← Option.some.inj h]
    exact h0
  | cons l ls ih =>
    intro t0 t h h0
    rw [runFrom] at h
    cases hp : processLine t0 l with
    | none =>
      rw [hp] at h
      cases h
    | some t1 =>
      rw [hp] at h
      have h1 : ∀ p ∈ t1, 1 ≤ p.2 := by
        rcases processLine_some_iff t0 l t1 hp with ⟨_, rfl⟩ | ⟨k, _, rfl⟩
        · exact h0
        · exact bump_pos t0 k h0
      exact ih t1 t h h1

theorem bump_map_fst (t : List (String × Nat)) (k : String) :
    (bump t k).map Prod.fst = insKey (t.map Prod.fst) k := by
  induction t with
  | nil => simp [bump, insKey]
  | cons q rest ih =>
    obtain ⟨k', c⟩ := q
    by_cases hk : k' = k
    · subst hk
      simp [bump, insKey]
    · have hne : ¬ k = k' := fun e => hk e.symm
      by_cases hmem : k ∈ rest.map Prod.fst
      · simp [bump, insKey, hk, hne, hmem, ih]
      · simp [bump, insKey, hk, hne, hmem, ih]

theorem runFrom_map_fst (ls : List String) :
    ∀ t0 t, runFrom t0 ls = some t →
      t.map Prod.fst = (keysOf ls).foldl insKey (t0.map Prod.fst) := by
  induction ls with
  | nil =>
    intro t0 t h
    rw [runFrom] at h
    rw [← Option.some.inj h]
    simp [keysOf]
  | cons l ls ih =>
    intro t0 t h
    rw [runFrom] at h
    cases hp : processLine t0 l with
    | none =>
      rw [hp] at h
      cases h
    | some t1 =>
      rw [hp] at h
      rcases processLine_some_iff t0 l t1 hp with ⟨hnone, rfl⟩ | ⟨k, hsome, rfl⟩
      · rw [ih t1 t h]
        simp [keysOf, List.filterMap_cons, hnone]
      · rw [ih (bump t0 k) t h]
        simp [keysOf, List.filterMap_cons, hsome, bump_map_fst]

theorem loopPhase_events_read (ls : List String) :
    ∀ t e, e ∈ (loopPhase t ls).1 → ∃ s, e = Ev.read s := by
  induction ls with
  | nil =>
    intro t e he
    simp [loopPhase] at he
  | cons l ls ih =>
    intro t e he
    cases h : processLine t l with
    | none =>
      simp only [loopPhase, h, List.mem_singleton] at he
      exact ⟨l, he⟩
    | some t' =>
      simp only [loopPhase, h, List.mem_cons] at he
      rcases he with rfl | he
      · exact ⟨l, rfl⟩
      · exact ih t' e he

theorem loopPhase_fst_of_some (ls : List String) :
    ∀ t t', runFrom t ls = some t' → (loopPhase t ls).1 = ls.map Ev.read := by
  induction ls with
  | nil =>
    intro t t' _
    simp [loopPhase]
  | cons l ls ih =>
    intro t t' h
    rw [runFrom] at h
    cases hp : processLine t l with
    | none =>
      rw [hp] at h
      cases h
    | some t1 =>
      rw [hp] at h
      simp only [loopPhase, hp, List.map_cons]
      rw [ih t1 t' h]

theorem exec_none_no_write (lines : List String) (s : String)
    (h : run lines = none) : Ev.write s ∉ (exec lines).1 := by
  have h2 : (loopPhase [] lines).2 = none := by
    rw [loopPhase_snd]
    exact h
  intro hmem
  have hfst : (exec lines).1 = (loopPhase [] lines).1 := by
    unfold exec
    rcases hl : loopPhase [] lines with ⟨evs, r⟩
    rw [hl] at h2
    simp only at h2
    subst h2
    rfl
  rw [hfst] at hmem
  rcases loopPhase_events_read lines [] (Ev.write s) hmem with ⟨s', hs⟩
  cases hs

theorem exec_some_trace (lines : List String) (t : List (String × Nat))
    (h : run lines = some t) :
    (exec lines).1 = lines.map Ev.read ++ (printLines t).map Ev.write := by
  have h2 : (loopPhase [] lines).2 = some t := by
    rw [loopPhase_snd]
    exact h
  have h1 : (loopPhase [] lines).1 = lines.map Ev.read :=
    loopPhase_fst_of_some lines [] t h
  unfold exec
  rcases hl : loopPhase [] lines with ⟨evs, r⟩
  rw [hl] at h1 h2
  simp only at h1 h2
  subst h1 h2
  rfl

theorem mostCommonEnum_fst_nodup (t : List (String × Nat)) :
    List.Pairwise (fun a b : Nat × String × Nat => a.1 ≠ b.1) (mostCommonEnum t) := by
  have hperm : List.Perm ((mostCommonEnum t).map Prod.fst) (t.enum.map Prod.fst) :=
    List.Perm.map Prod.fst (mostCommonEnum_perm t)
  have hnod : (t.enum.map Prod.fst).Nodup := by
    rw [List.enum_map_fst]
    exact List.nodup_range _
  have hsorted : ((mostCommonEnum t).map Prod.fst).Nodup := hperm.nodup_iff.mpr hnod
  exact (List.pairwise_map).mp hsorted

theorem mostCommonEnum_tie_strict (t : List (String × Nat)) :
    List.Pairwise (fun a b : Nat × String × Nat => a.2.2 = b.2.2 → a.1 < b.1)
      (mostCommonEnum t) := by
  have h3 := List.Pairwise.and (mostCommonEnum_pairwise t) (mostCommonEnum_fst_nodup t)
  refine h3.imp ?_
  intro a b hab
  obtain ⟨hab, hne⟩ := hab
  intro heq
  rcases (decide_eq_true_eq).mp hab with h | ⟨_, hle⟩
  · rw [heq] at h
    exact absurd h (Nat.lt_irrefl _)
  · exact Nat.lt_of_le_of_ne hle hne

theorem mostCommonEnum_rev_tie (t : List (String × Nat)) :
    List.Pairwise (fun a b : Nat × String × Nat => a.2.2 = b.2.2 → b.1 < a.1)
      ((mostCommonEnum t).reverse) := by
  refine (List.pairwise_reverse).mpr ?_
  refine (mostCommonEnum_tie_strict t).imp ?_
  intro a b h heq
  exact h heq.symm

/-- C1: a line that starts with `case` but does not split into exactly two
whitespace-delimited tokens whose first is literally `case` makes the loop
abort at that line — it is neither skipped nor counted, and the whole run
fails hard (`none`, the uncaught exception), whatever the tally state and
whatever lines surround it. -/
theorem C1_malformed_matching_line_aborts (line : String) (t : List (String × Nat))
    (pre post : List String) (h1 : strStartsWith line "case" = true)
    (h2 : ∀ f, pySplit line ≠ ["case", f]) :
    processLine t line = none ∧ run (pre ++ line :: post) = none := by
  refine ⟨processLine_abort line h1 h2 t, ?_⟩
  exact runFrom_append_none line (processLine_abort line h1 h2) pre [] post

theorem C1_witness :
    processLine [("a", 1)] "case" = none ∧
      run (["junk"] ++ "case" :: ["case a/b"]) = none := by
  have hc : pySplit "case" = ["case"] := by decide
  refine C1_malformed_matching_line_aborts "case" [("a", 1)] ["junk"] ["case a/b"]
    (by decide) ?_
  intro f h
  rw [hc] at h
  simp at h

/-- C2: a line that does not start with `case` leaves the tally unchanged for
any tally state, and removing it from any position of the input stream leaves
the run and the final output identical — such lines are never an error. -/
theorem C2_nonmatching_line_no_effect (line : String) (t : List (String × Nat))
    (pre post : List String) (h : strStartsWith line "case" = false) :
    processLine t line = some t ∧
      run (pre ++ line :: post) = run (pre ++ post) ∧
      output (pre ++ line :: post) = output (pre ++ post) := by
  have hskip : ∀ t', processLine t' line = some t' := fun t' =>
    processLine_skip t' line h
  have hrun : run (pre ++ line :: post) = run (pre ++ post) :=
    runFrom_skip_middle line hskip pre [] post
  refine ⟨hskip t, hrun, ?_⟩
  unfold output
  rw [hrun]

theorem C2_witness :
    processLine [("q", 5)] "notcase a/b" = some [("q", 5)] ∧
      run (["case a/b"] ++ "notcase a/b" :: ["case c/d"]) =
        run (["case a/b"] ++ ["case c/d"]) ∧
      output (["case a/b"] ++ "notcase a/b" :: ["case c/d"]) =
        output (["case a/b"] ++ ["case c/d"]) :=
  C2_nonmatching_line_no_effect "notcase a/b" [("q", 5)] ["case a/b"] ["case c/d"]
    (by decide)

/-- C3: on the three lines `case a/b/x`, `case a/b/y`, `case a/c/z` the run
ends with exactly the tally `a/b → 2, a/c → 1`; in general a well-formed
`case <path>` line bumps the count of the path's directory key by exactly one
(an absent key starts at 0, i.e. `countOf`, and becomes 1) and leaves every
other key's count unchanged. -/
theorem C3_grouping_increments (line f k' : String) (t : List (String × Nat))
    (h1 : strStartsWith line "case" = true) (h2 : pySplit line = ["case", f])
    (hk : k' ≠ dirname f) :
    run ["case a/b/x", "case a/b/y", "case a/c/z"] =
        some [("a/b", 2), ("a/c", 1)] ∧
      processLine t line = some (bump t (dirname f)) ∧
      countOf (bump t (dirname f)) (dirname f) = countOf t (dirname f) + 1 ∧
      countOf (bump t (dirname f)) k' = countOf t k' :=
  ⟨by decide, processLine_wf line f h1 h2 t, countOf_bump_self t (dirname f),
    countOf_bump_other t (dirname f) k' hk⟩

theorem C3_witness :
    run ["case a/b/x", "case a/b/y", "case a/c/z"] =
        some [("a/b", 2), ("a/c", 1)] ∧
      processLine [("a", 1)] "case a/b" = some (bump [("a", 1)] (dirname "a/b")) ∧
      countOf (bump [("a", 1)] (dirname "a/b")) (dirname "a/b") =
        countOf [("a", 1)] (dirname "a/b") + 1 ∧
      countOf (bump [("a", 1)] (dirname "a/b")) "zz" = countOf [("a", 1)] "zz" :=
  C3_grouping_increments "case a/b" "a/b" "zz" [("a", 1)] (by decide) (by decide)
    (by decide)

/-- C4: the grouping key of a well-formed `case <path>` line is
`dirname <path>`, the path with its final `/`-separated segment removed:
the key of `a/b/c` is `a/b`, and any path containing no `/` at all has the
empty string as its key, so all bare filenames accumulate under the one
empty-string key. -/
theorem C4_directory_key (line f g g2 : String) (t : List (String × Nat))
    (h1 : strStartsWith line "case" = true) (h2 : pySplit line = ["case", f])
    (hg : '/' ∉ g.toList) (hg2 : '/' ∉ g2.toList) :
    processLine t line = some (bump t (dirname f)) ∧
      dirname "a/b/c" = "a/b" ∧ dirname g = "" ∧ dirname g2 = dirname g := by
  have e1 := dirname_no_slash g hg
  have e2 := dirname_no_slash g2 hg2
  exact ⟨processLine_wf line f h1 h2 t, by decide, e1, e2.trans e1.symm⟩

theorem C4_witness :
    processLine [] "case file.txt" = some (bump [] (dirname "file.txt")) ∧
      dirname "a/b/c" = "a/b" ∧ dirname "file.txt" = "" ∧
      dirname "notes.md" = dirname "file.txt" :=
  C4_directory_key "case file.txt" "file.txt" "file.txt" "notes.md" []
    (by decide) (by decide) (by decide) (by decide)

/-- C5: the output pairs are the tally entries exactly once each (a
permutation, one line per distinct key), ordered by count ascending, and the
printed lines are those pairs formatted in that order; on the tally
`a → 3, b → 1, c → 2` the output order is `b`, `c`, `a`. -/
theorem C5_output_order (t : List (String × Nat)) :
    List.Pairwise (fun p q : String × Nat => p.2 ≤ q.2) (outputPairs t) ∧
      List.Perm (outputPairs t) t ∧
      printLines t = (outputPairs t).map formatLine ∧
      outputPairs [("a", 3), ("b", 1), ("c", 2)] = [("b", 1), ("c", 2), ("a", 3)] :=
  ⟨outputPairs_sorted t, outputPairs_perm t, rfl, by decide⟩

/-- C6: the event trace of an aborted run contains no write at all, and the
trace of a successful run reads the entire input before the first write: all
report lines are written only after end of stream. -/
theorem C6_no_output_until_eof (lines ls2 : List String) (s : String)
    (t2 : List (String × Nat)) (h : run lines = none) (h2 : run ls2 = some t2) :
    Ev.write s ∉ (exec lines).1 ∧
      (exec ls2).1 = ls2.map Ev.read ++ (printLines t2).map Ev.write :=
  ⟨exec_none_no_write lines s h, exec_some_trace ls2 t2 h2⟩

theorem C6_witness :
    Ev.write "x" ∉ (exec ["case"]).1 ∧
      (exec ["case a/b"]).1 =
        ["case a/b"].map Ev.read ++ (printLines [("a", 1)]).map Ev.write :=
  C6_no_output_until_eof ["case"] ["case a/b"] "x" [("a", 1)] (by decide) (by decide)

/-- C7: on an empty input the run succeeds with the empty tally, the output is
empty, and the trace ends with the success flag set (exit code 0). -/
theorem C7_empty_input :
    run [] = some [] ∧ output [] = some [] ∧ outputText [] = some "" ∧
      exec [] = ([], true) := by
  refine ⟨rfl, rfl, ?_, ?_⟩ <;> rfl

/-- C8: the program is a pure function of its input lines — two runs on the
same input produce character-for-character identical output and identical
traces. -/
theorem C8_deterministic (l1 l2 : List String) (h : l1 = l2) :
    outputText l1 = outputText l2 ∧ exec l1 = exec l2 := by
  subst h
  exact ⟨rfl, rfl⟩

theorem C8_witness :
    outputText ["case a/b"] = outputText ["case a/b"] ∧
      exec ["case a/b"] = exec ["case a/b"] :=
  C8_deterministic ["case a/b"] ["case a/b"] rfl

/-- C9: every key of the final tally of a successful run has count at least 1
(entries are only created by incrementing), so every output pair carries a
strictly positive count. -/
theorem C9_positive_counts (lines : List String) (t : List (String × Nat))
    (k : String) (c : Nat) (q : String × Nat) (h : run lines = some t)
    (hkc : (k, c) ∈ t) (hq : q ∈ outputPairs t) : 1 ≤ c ∧ 1 ≤ q.2 := by
  have hall : ∀ p ∈ t, 1 ≤ p.2 := runFrom_pos lines [] t h (by simp)
  exact ⟨hall (k, c) hkc, hall q ((outputPairs_perm t).mem_iff.mp hq)⟩

theorem C9_witness : 1 ≤ 1 ∧ 1 ≤ (("a", 1) : String × Nat).2 :=
  C9_positive_counts ["case a/b"] [("a", 1)] "a" 1 ("a", 1) (by decide) (by decide)
    (by decide)

/-- C10: the tally keys of a successful run are the distinct contributed keys
in first-occurrence order; the output pairs are the reversal of the sorted
enumerated tally; and in that reversal two entries of equal count appear in
strictly decreasing tally-index order — i.e. ties are printed in reverse
order of first occurrence in the input. -/
theorem C10_tie_break_order (lines : List String) (t : List (String × Nat))
    (h : run lines = some t) :
    t.map Prod.fst = firstOccs (keysOf lines) ∧
      outputPairs t = ((mostCommonEnum t).reverse).map Prod.snd ∧
      List.Pairwise (fun a b : Nat × String × Nat => a.2.2 = b.2.2 → b.1 < a.1)
        ((mostCommonEnum t).reverse) := by
  refine ⟨runFrom_map_fst lines [] t h, ?_, mostCommonEnum_rev_tie t⟩
  unfold outputPairs most_common
  rw [List.map_reverse]

theorem C10_witness :
    List.map Prod.fst [("a", 1), ("b", 1)] =
        firstOccs (keysOf ["case a/x", "case b/y"]) ∧
      outputPairs [("a", 1), ("b", 1)] =
        ((mostCommonEnum [("a", 1), ("b", 1)]).reverse).map Prod.snd ∧
      List.Pairwise (fun a b : Nat × String × Nat => a.2.2 = b.2.2 → b.1 < a.1)
        ((mostCommonEnum [("a", 1), ("b", 1)]).reverse) :=
  C10_tie_break_order ["case a/x", "case b/y"] [("a", 1), ("b", 1)] (by decide)
